import Mathlib

/-!
Shallow embedding of the popoki Wordle engine.

The definitions below translate the correctness-mask computation and the
compatibility oracle from src/src/lib.rs, the game loop Wordle::play, and the
copy-on-write candidate pool with its narrowing logic from the Weight guesser
in src/src/algorithms/weight.rs. Words are five bytes, modelled as functions
from Fin 5 to Nat; masks are five correctness values.
-/

namespace Popoki

/-- The three per-position outcomes of comparing a guess letter against the
answer: green, yellow and gray. -/
inductive Correctness where
  | Correct
  | Misplaced
  | Wrong
deriving DecidableEq

open Correctness

/-- A word is exactly five letters, modelled as bytes indexed by position. -/
abbrev Word := Fin 5 → Nat

/-- A mask is the five-position array of per-letter outcomes. -/
abbrev Mask := Fin 5 → Correctness

/-- The first pass of Correctness.compute: mark green where the letters agree
and gray elsewhere. -/
def greens (answer guess : Word) : Mask :=
  fun i => if answer i = guess i then Correct else Wrong

/-- The left-to-right scan over answer positions that the closure inside
Correctness.compute performs: stop at the first unused position holding the
guessed letter and mark it used. Returns whether such a position was found
together with the updated used flags. -/
def scanMark (answer : Word) (g : Nat) : List (Fin 5) → (Fin 5 → Bool) → Bool × (Fin 5 → Bool)
  | [], used => (false, used)
  | j :: js, used =>
    if answer j = g ∧ used j = false then (true, Function.update used j true)
    else scanMark answer g js used

/-- One iteration of the yellow-marking loop of Correctness.compute: a
position already green is skipped, otherwise the answer is scanned for an
unused occurrence of the guessed letter. -/
def yellowStep (answer guess : Word) (st : Mask × (Fin 5 → Bool)) (i : Fin 5) :
    Mask × (Fin 5 → Bool) :=
  if st.1 i = Correct then st
  else
    let r := scanMark answer (guess i) (List.finRange 5) st.2
    if r.1 then (Function.update st.1 i Misplaced, r.2) else (st.1, r.2)

/-- Correctness.compute from src/src/lib.rs: the first pass marks greens and
flags those answer positions used, the second pass walks guess positions in
order, marking yellow via the first unused matching answer position. -/
def compute (answer guess : Word) : Mask :=
  ((List.finRange 5).foldl (yellowStep answer guess)
    (greens answer guess, fun i => decide (greens answer guess i = Correct))).1

/-- Left-to-right search for an unused occurrence of the guessed letter, as
the specification words the second pass. -/
def findUnused (answer : Word) (used : Fin 5 → Bool) (g : Nat) : Option (Fin 5) :=
  (List.finRange 5).find? (fun j => decide (answer j = g) && !used j)

/-- One position of the second pass of the reference algorithm, as the
specification words it: if an unused occurrence is found, mark Misplaced and
flag that answer position used, otherwise leave the position gray. -/
def refStep (answer guess : Word) (st : Mask × (Fin 5 → Bool)) (i : Fin 5) :
    Mask × (Fin 5 → Bool) :=
  if st.1 i = Correct then st
  else
    match findUnused answer st.2 (guess i) with
    | some j => (Function.update st.1 i Misplaced, Function.update st.2 j true)
    | none => st

/-- The two-pass reference algorithm stated by the specification (section
4.1), to be compared with the source translation in compute. -/
def computeRef (answer guess : Word) : Mask :=
  ((List.finRange 5).foldl (refStep answer guess)
    (greens answer guess, fun i => decide (answer i = guess i))).1

/-- A past guess: the word played and the mask it received. -/
structure Guess where
  word : Word
  mask : Mask
deriving DecidableEq

/-- Guess.matches from src/src/lib.rs: a candidate is compatible iff
computing the mask for the played word against the candidate taken as the
answer gives exactly the recorded mask. -/
def Guess.matches (g : Guess) (w : Word) : Bool :=
  decide (compute w g.word = g.mask)

/-- A dictionary entry: a word together with its frequency. -/
abbrev Entry := Word × Nat

/-- The copy-on-write candidate pool of the Weight guesser, the Cow of the
source: either a borrowed view of the shared initial dictionary or a private
owned copy. -/
inductive Pool where
  | borrowed (l : List Entry)
  | owned (l : List Entry)
deriving DecidableEq

/-- The sequence of entries a pool currently holds. -/
def Pool.list : Pool → List Entry
  | borrowed l => l
  | owned l => l

/-- Whether the pool is still the borrowed view of the shared dictionary. -/
def Pool.isBorrowed : Pool → Bool
  | borrowed _ => true
  | owned _ => false

/-- Vec.retain as Weight.guess applies it to an owned pool: keep, in order,
exactly the entries satisfying the predicate, removing the rest in place. -/
def retain (p : Entry → Bool) : List Entry → List Entry
  | [] => []
  | e :: es => if p e then e :: retain p es else retain p es

/-- The narrowing step of Weight.guess for one past guess: an owned pool is
retained in place, while a borrowed pool is filtered into a fresh owned
copy. -/
def narrowStep (last : Guess) : Pool → Pool
  | .owned l => .owned (retain (fun e => last.matches e.1) l)
  | .borrowed l => .owned (l.filter (fun e => last.matches e.1))

/-- The narrowing block at the top of Weight.guess: narrow by the most recent
history entry when one exists, otherwise leave the pool untouched. -/
def narrowPool (history : List Guess) (st : Pool) : Pool :=
  match history.getLast? with
  | some last => narrowStep last st
  | none => st

/-- The fixed opening word the Weight guesser returns on an empty history. -/
def traceWord : Word := ![116, 114, 97, 99, 101]

/-- The fixed fallback word the Weight guesser returns on an empty pool. -/
def cigar : Word := ![99, 105, 103, 97, 114]

/-- The best-candidate fold of Weight.guess: best starts empty and is
replaced only when a later candidate scores strictly higher, so the first
maximiser in pool order wins. -/
def bestLoop (score : Entry → ℚ) (l : List Entry) : Option (Word × ℚ) :=
  l.foldl
    (fun best e =>
      match best with
      | none => some (e.1, score e)
      | some b => if score e > b.2 then some (e.1, score e) else some b)
    none

/-- Weight.guess from src/src/algorithms/weight.rs, with the f64 goodness
computation abstracted by the score parameter: narrow by the latest history
entry, answer the fixed opening word on an empty history, and otherwise
return the best-scoring pool entry, or the fallback word when the pool is
empty. The returned pair is the guessed word together with the updated
pool state. -/
def weightGuess (score : Entry → ℚ) (history : List Guess) (st : Pool) : Word × Pool :=
  let st2 := narrowPool history st
  if history.isEmpty then (traceWord, st2)
  else (((bestLoop score st2.list).map Prod.fst).getD cigar, st2)

/-- Wordle.play from src/src/lib.rs, with the assertion on dictionary
membership modelled by an error result: for up to 32 rounds, ask the strategy
for a guess, succeed with the round number when it equals the answer, abort
when a non-winning guess is not a dictionary word, and otherwise record the
feedback and continue. The round number is one more than the history length. -/
def playAux (dict : List Word) (answer : Word) (strat : List Guess → Word) :
    Nat → List Guess → Except Unit (Option Nat)
  | 0, _ => .ok none
  | fuel + 1, history =>
    let g := strat history
    if g = answer then .ok (some (history.length + 1))
    else if g ∈ dict then
      playAux dict answer strat fuel (history ++ [⟨g, compute answer g⟩])
    else .error ()

/-- The full game loop: 32 rounds starting from an empty history. -/
def play (dict : List Word) (answer : Word) (strat : List Guess → Word) :
    Except Unit (Option Nat) :=
  playAux dict answer strat 32 []

/-- The history the game loop has built after n rounds, none of which won. -/
def traceHist (strat : List Guess → Word) (answer : Word) : Nat → List Guess
  | 0 => []
  | n + 1 =>
    traceHist strat answer n ++
      [⟨strat (traceHist strat answer n), compute answer (strat (traceHist strat answer n))⟩]

/-- The guess the strategy emits at round i (1-indexed) of a run against the
given answer, assuming no earlier round won. -/
def guessAt (strat : List Guess → Word) (answer : Word) (i : Nat) : Word :=
  strat (traceHist strat answer (i - 1))

/-- The word aabbb from the duplicate-letter test vectors. -/
def wAabbb : Word := ![97, 97, 98, 98, 98]

/-- The word aaccc from the duplicate-letter test vectors. -/
def wAaccc : Word := ![97, 97, 99, 99, 99]

/-- The word ccaac from the duplicate-letter test vectors. -/
def wCcaac : Word := ![99, 99, 97, 97, 99]

/-- The word caacc from the duplicate-letter test vectors. -/
def wCaacc : Word := ![99, 97, 97, 99, 99]

/-- The word azzaz from the duplicate-letter test vectors. -/
def wAzzaz : Word := ![97, 122, 122, 97, 122]

/-- The word aaabb from the duplicate-letter test vectors. -/
def wAaabb : Word := ![97, 97, 97, 98, 98]

/-- The word right, used by the game-loop test scenarios. -/
def wRight : Word := ![114, 105, 103, 104, 116]

/-- The word wrong, used by the game-loop test scenarios. -/
def wWrong : Word := ![119, 114, 111, 110, 103]

/-- A past guess of wrong scored against the answer right. -/
def gWrong : Guess := ⟨wWrong, compute wRight wWrong⟩

/-- A past guess of right scored against the answer right itself, whose
narrowing therefore removes nothing. -/
def gSelf : Guess := ⟨wRight, compute wRight wRight⟩

theorem scanMark_eq (answer : Word) (g : Nat) :
    ∀ (js : List (Fin 5)) (used : Fin 5 → Bool),
      scanMark answer g js used =
        match js.find? (fun j => decide (answer j = g) && !used j) with
        | some j => (true, Function.update used j true)
        | none => (false, used)
  | [], used => rfl
  | j :: js, used => by
    by_cases h : answer j = g ∧ used j = false
    · have hp : (decide (answer j = g) && !used j) = true := by
        simp [h.1, h.2]
      rw [scanMark, if_pos h]
      simp only [List.find?, hp]
    · have hp : (decide (answer j = g) && !used j) = false := by
        by_cases h1 : answer j = g
        · by_cases h2 : used j = false
          · exact absurd ⟨h1, h2⟩ h
          · simp at h2
            simp [h2]
        · simp [h1]
      rw [scanMark, if_neg h]
      simp only [List.find?, hp]
      exact scanMark_eq answer g js used

theorem yellowStep_eq_refStep (answer guess : Word) (st : Mask × (Fin 5 → Bool)) (i : Fin 5) :
    yellowStep answer guess st i = refStep answer guess st i := by
  unfold yellowStep refStep findUnused
  by_cases h : st.1 i = Correct
  · rw [if_pos h, if_pos h]
  · rw [if_neg h, if_neg h, scanMark_eq]
    rcases hf : (List.finRange 5).find? (fun j => decide (answer j = guess i) && !st.2 j) with _ | j
    · simp [hf]
    · simp [hf]

theorem compute_eq_computeRef (answer guess : Word) :
    compute answer guess = computeRef answer guess := by
  unfold compute computeRef
  have hinit : (fun i => decide (greens answer guess i = Correct)) =
      (fun i => decide (answer i = guess i)) := by
    funext i
    by_cases h : answer i = guess i <;> simp [greens, h]
  rw [hinit]
  exact congrArg Prod.fst
    (List.foldl_ext _ _ _ (fun st j _ => yellowStep_eq_refStep answer guess st j))

/-- C1: Correctness.compute agrees with the two-pass reference algorithm of
the specification on every pair of five-byte words, and reproduces the
concrete duplicate-letter vectors given there. -/
theorem compute_matches_reference :
    (∀ answer guess : Word, compute answer guess = computeRef answer guess) ∧
    compute wAabbb wAaccc = ![Correct, Correct, Wrong, Wrong, Wrong] ∧
    compute wAabbb wCcaac = ![Wrong, Wrong, Misplaced, Misplaced, Wrong] ∧
    compute wAabbb wCaacc = ![Wrong, Correct, Misplaced, Wrong, Wrong] ∧
    compute wAzzaz wAaabb = ![Correct, Misplaced, Wrong, Wrong, Wrong] :=
  ⟨compute_eq_computeRef, by decide, by decide, by decide, by decide⟩

/-- C2: Guess.matches holds exactly when recomputing the mask of the played
word against the candidate taken as answer reproduces the recorded mask, and
consequently a mask computed against a true answer always accepts that
answer. -/
theorem matches_iff_compute (g : Guess) (w : Word) :
    (g.matches w = true ↔ compute w g.word = g.mask) ∧
    (∀ (A G : Word) (M : Mask), compute A G = M → Guess.matches ⟨G, M⟩ A = true) := by
  constructor
  · show decide (compute w g.word = g.mask) = true ↔ compute w g.word = g.mask
    exact decide_eq_true_iff
  · intro A G M h
    subst h
    exact decide_eq_true rfl

/-- Witness for C2: the recorded feedback of ccaac against answer aabbb
accepts aabbb as a candidate. -/
theorem matches_iff_compute_witness :
    Guess.matches ⟨wCcaac, ![Wrong, Wrong, Misplaced, Misplaced, Wrong]⟩ wAabbb = true :=
  (matches_iff_compute ⟨wCcaac, ![Wrong, Wrong, Misplaced, Misplaced, Wrong]⟩ wAabbb).2
    wAabbb wCcaac ![Wrong, Wrong, Misplaced, Misplaced, Wrong] (by decide)

theorem foldl_yellowStep_fixed (answer guess : Word) :
    ∀ (l : List (Fin 5)) (st : Mask × (Fin 5 → Bool)), (∀ i, st.1 i = Correct) →
      l.foldl (yellowStep answer guess) st = st
  | [], _, _ => rfl
  | i :: is, st, h => by
    rw [List.foldl_cons]
    have hstep : yellowStep answer guess st i = st := by
      unfold yellowStep
      rw [if_pos (h i)]
    rw [hstep]
    exact foldl_yellowStep_fixed answer guess is st h

theorem yellowStep_correct_mono (answer guess : Word) (st : Mask × (Fin 5 → Bool))
    (i j : Fin 5) (h : (yellowStep answer guess st i).1 j = Correct) : st.1 j = Correct := by
  unfold yellowStep at h
  by_cases hc : st.1 i = Correct
  · rwa [if_pos hc] at h
  · rw [if_neg hc] at h
    by_cases hr : (scanMark answer (guess i) (List.finRange 5) st.2).1 = true
    · rw [if_pos hr] at h
      have h2 : Function.update st.1 i Misplaced j = Correct := h
      by_cases hji : j = i
      · subst hji
        rw [Function.update_same] at h2
        exact absurd h2 (by simp)
      · rwa [Function.update_noteq hji] at h2
    · rw [if_neg hr] at h
      exact h

theorem foldl_correct_mono (answer guess : Word) :
    ∀ (l : List (Fin 5)) (st : Mask × (Fin 5 → Bool)) (j : Fin 5),
      (l.foldl (yellowStep answer guess) st).1 j = Correct → st.1 j = Correct
  | [], _, _, h => h
  | i :: is, st, j, h =>
    yellowStep_correct_mono answer guess st i j
      (foldl_correct_mono answer guess is _ j h)

/-- C10: the computed mask is all green exactly when the guess equals the
answer byte for byte, so the game-loop win test by word equality coincides
with receiving the all-Correct mask. -/
theorem compute_all_correct_iff (answer guess : Word) :
    compute answer guess = (fun _ => Correctness.Correct) ↔ answer = guess := by
  constructor
  · intro h
    funext i
    have hi : (((List.finRange 5).foldl (yellowStep answer guess)
        (greens answer guess, fun k => decide (greens answer guess k = Correct))).1) i
          = Correct := congrFun h i
    have hg : greens answer guess i = Correct :=
      foldl_correct_mono answer guess (List.finRange 5) _ i hi
    unfold greens at hg
    by_cases hx : answer i = guess i
    · exact hx
    · rw [if_neg hx] at hg
      exact absurd hg (by simp)
  · rintro rfl
    have hg : ∀ i, greens answer answer i = Correct := fun i => by simp [greens]
    unfold compute
    rw [foldl_yellowStep_fixed answer answer (List.finRange 5) _ (fun i => hg i)]
    funext i
    exact hg i

/-- Witness for C10: a word scored against itself receives the all-green
mask. -/
theorem compute_all_correct_iff_witness :
    compute wRight wRight = (fun _ => Correctness.Correct) :=
  (compute_all_correct_iff wRight wRight).mpr rfl

theorem retain_eq_filter (p : Entry → Bool) : ∀ l : List Entry, retain p l = l.filter p
  | [] => rfl
  | e :: es => by
    by_cases h : p e = true <;>
      simp [retain, List.filter_cons, h, retain_eq_filter p es]

theorem weightGuess_snd (score : Entry → ℚ) (history : List Guess) (st : Pool) :
    (weightGuess score history st).2 = narrowPool history st := by
  unfold weightGuess
  by_cases h : history.isEmpty = true <;> simp [h]

theorem narrowStep_list (last : Guess) (st : Pool) :
    (narrowStep last st).list = st.list.filter (fun e => last.matches e.1) := by
  cases st with
  | borrowed l => rfl
  | owned l => exact retain_eq_filter _ l

/-- C3: when the latest history entry carries the mask computed against a
fixed true answer, the narrowing performed by Weight.guess keeps the pool a
sublist of what it was (so the pool never grows), and the true answer is
never filtered out. -/
theorem pool_monotone_preserves_answer (score : Entry → ℚ) (history : List Guess)
    (st : Pool) (answer : Word) (last : Guess)
    (hlast : history.getLast? = some last)
    (hmask : last.mask = compute answer last.word) :
    ((weightGuess score history st).2.list).Sublist st.list ∧
    ((weightGuess score history st).2.list).length ≤ st.list.length ∧
    (∀ f : Nat, (answer, f) ∈ st.list → (answer, f) ∈ (weightGuess score history st).2.list) := by
  have hlist : (weightGuess score history st).2.list =
      st.list.filter (fun e => last.matches e.1) := by
    rw [weightGuess_snd]
    unfold narrowPool
    rw [hlast]
    exact narrowStep_list last st
  have hmatch : last.matches answer = true := decide_eq_true hmask.symm
  refine ⟨?_, ?_, ?_⟩
  · rw [hlist]
    exact List.filter_sublist st.list
  · rw [hlist]
    exact List.length_filter_le _ st.list
  · intro f hf
    rw [hlist]
    exact List.mem_filter.mpr ⟨hf, hmatch⟩

/-- Witness for C3: a pool holding the true answer right still holds it after
narrowing by the feedback of the guess wrong, and the narrowed pool is a
sublist of the original. -/
theorem pool_monotone_preserves_answer_witness :
    ((wRight, (5 : Nat)) ∈
      (weightGuess (fun _ => 0) [gWrong] (Pool.borrowed [(wRight, 5)])).2.list) ∧
    ((weightGuess (fun _ => 0) [gWrong] (Pool.borrowed [(wRight, 5)])).2.list).Sublist
      [(wRight, 5)] := by
  have h := pool_monotone_preserves_answer (fun _ => 0) [gWrong]
    (Pool.borrowed [(wRight, 5)]) wRight gWrong (by simp) rfl
  exact ⟨h.2.2 5 (by simp [Pool.list]), h.1⟩

/-- C7: with a non-empty history, narrowing keeps exactly the entries whose
word satisfies the compatibility oracle for the most recent guess, the
retain path on an owned pool and the filter path on a borrowed pool produce
the same sequence of entries, and the updated pool of Weight.guess depends
only on the most recent history entry. -/
theorem narrow_paths_agree :
    (∀ (last : Guess) (pool : List Entry),
        retain (fun e => last.matches e.1) pool =
          pool.filter (fun e => last.matches e.1)) ∧
    (∀ (last : Guess) (l : List Entry),
        (narrowStep last (Pool.owned l)).list = (narrowStep last (Pool.borrowed l)).list) ∧
    (∀ (last : Guess) (pool : List Entry) (e : Entry),
        e ∈ (narrowStep last (Pool.borrowed pool)).list ↔
          e ∈ pool ∧ last.matches e.1 = true) ∧
    (∀ (score : Entry → ℚ) (h1 h2 : List Guess) (st : Pool),
        h1.getLast? = h2.getLast? →
          (weightGuess score h1 st).2 = (weightGuess score h2 st).2) := by
  refine ⟨?_, ?_, ?_, ?_⟩
  · intro last pool
    exact retain_eq_filter _ pool
  · intro last l
    rw [narrowStep_list, narrowStep_list]
    rfl
  · intro last pool e
    rw [narrowStep_list]
    exact List.mem_filter
  · intro score h1 h2 st heq
    rw [weightGuess_snd, weightGuess_snd]
    unfold narrowPool
    rw [heq]

/-- Witness for C7: narrowing with a two-entry history whose last entry
agrees with a one-entry history gives the same updated pool. -/
theorem narrow_paths_agree_witness :
    (weightGuess (fun _ => 0) [gSelf, gWrong] (Pool.borrowed [(wRight, 5)])).2 =
      (weightGuess (fun _ => 0) [gWrong] (Pool.borrowed [(wRight, 5)])).2 :=
  narrow_paths_agree.2.2.2 (fun _ => 0) [gSelf, gWrong] [gWrong]
    (Pool.borrowed [(wRight, 5)]) (by simp)

/-- Counterexample for C8: the guess gSelf removes nothing from the pool
holding only the answer right, yet one call of Weight.guess on the borrowed
pool leaves it owned, not borrowed. -/
theorem cow_stays_borrowed_cex :
    (List.filter (fun e => gSelf.matches e.1) [(wRight, 1)] = [(wRight, 1)]) ∧
    ((weightGuess (fun _ => 0) [gSelf] (Pool.borrowed [(wRight, 1)])).2).isBorrowed = false := by
  constructor
  · have hm : gSelf.matches wRight = true := decide_eq_true rfl
    simp [List.filter_cons, hm]
  · rw [weightGuess_snd]
    simp [narrowPool, narrowStep, Pool.isBorrowed]

/-- C8 amended: the pool stays borrowed only while no narrowing has run (a
call with empty history leaves it untouched); the first call with a
non-empty history materializes an owned filtered copy regardless of whether
any entry was removed, and later narrowing retains on the owned copy in
place. -/
theorem cow_promotes_on_first_narrow (score : Entry → ℚ) (st : Pool) (l : List Entry)
    (history : List Guess) (last : Guess) (hlast : history.getLast? = some last) :
    (weightGuess score [] st).2 = st ∧
    (weightGuess score history (Pool.borrowed l)).2 =
      Pool.owned (l.filter (fun e => last.matches e.1)) ∧
    (weightGuess score history (Pool.owned l)).2 =
      Pool.owned (retain (fun e => last.matches e.1) l) := by
  refine ⟨?_, ?_, ?_⟩
  · rw [weightGuess_snd]
    rfl
  · rw [weightGuess_snd]
    simp [narrowPool, hlast, narrowStep]
  · rw [weightGuess_snd]
    simp [narrowPool, hlast, narrowStep]

/-- Witness for C8 amended: one narrowing call on a borrowed pool that
removes nothing still yields the owned filtered copy. -/
theorem cow_promotes_on_first_narrow_witness :
    (weightGuess (fun _ => 0) [gSelf] (Pool.borrowed [(wRight, 1)])).2 =
      Pool.owned (List.filter (fun e => gSelf.matches e.1) [(wRight, 1)]) :=
  (cow_promotes_on_first_narrow (fun _ => 0) (Pool.borrowed []) [(wRight, 1)]
    [gSelf] gSelf (by simp)).2.1

/-- C9: on a non-empty history, when the pool is empty after narrowing,
Weight.guess returns the fixed fallback word cigar instead of failing. -/
theorem empty_pool_fallback (score : Entry → ℚ) (history : List Guess) (st : Pool)
    (hne : history ≠ []) (hempty : (narrowPool history st).list = []) :
    (weightGuess score history st).1 = cigar := by
  have hne2 : history.isEmpty = false := by
    cases history with
    | nil => exact absurd rfl hne
    | cons a l => rfl
  unfold weightGuess
  simp [hne2, hempty, bestLoop]

/-- Witness for C9: narrowing an already empty borrowed pool with one past
guess makes Weight.guess answer cigar. -/
theorem empty_pool_fallback_witness :
    (weightGuess (fun _ => 0) [gSelf] (Pool.borrowed [])).1 = cigar :=
  empty_pool_fallback (fun _ => 0) [gSelf] (Pool.borrowed [])
    (by simp) (by simp [narrowPool, narrowStep, Pool.list])

theorem playAux_succ (dict : List Word) (answer : Word) (strat : List Guess → Word)
    (fuel : Nat) (history : List Guess) :
    playAux dict answer strat (fuel + 1) history =
      if strat history = answer then .ok (some (history.length + 1))
      else if strat history ∈ dict then
        playAux dict answer strat fuel
          (history ++ [⟨strat history, compute answer (strat history)⟩])
      else .error () := rfl

theorem traceHist_length (strat : List Guess → Word) (answer : Word) :
    ∀ n : Nat, (traceHist strat answer n).length = n
  | 0 => rfl
  | n + 1 => by
    simp [traceHist, traceHist_length strat answer n]

theorem playAux_ok_iff (dict : List Word) (answer : Word) (strat : List Guess → Word) :
    ∀ fuel n : Nat,
      (∀ j, n + 1 ≤ j → j ≤ n + fuel → guessAt strat answer j ≠ answer →
        guessAt strat answer j ∈ dict) →
      (∀ i : Nat,
        (playAux dict answer strat fuel (traceHist strat answer n) = .ok (some i) ↔
          (n + 1 ≤ i ∧ i ≤ n + fuel ∧ guessAt strat answer i = answer ∧
            ∀ j, n + 1 ≤ j → j < i → guessAt strat answer j ≠ answer))) ∧
      (playAux dict answer strat fuel (traceHist strat answer n) = .ok none ↔
        ∀ j, n + 1 ≤ j → j ≤ n + fuel → guessAt strat answer j ≠ answer) := by
  intro fuel
  induction fuel with
  | zero =>
    intro n hdict
    constructor
    · intro i
      constructor
      · intro h
        exact absurd h (by simp [playAux])
      · rintro ⟨h1, h2, -, -⟩
        exact absurd h1 (by omega)
    · constructor
      · intro _ j hj1 hj2
        exact absurd hj1 (by omega)
      · intro _
        rfl
  | succ fuel ih =>
    intro n hdict
    by_cases hwin : strat (traceHist strat answer n) = answer
    · have hwg : guessAt strat answer (n + 1) = answer := hwin
      have hred : playAux dict answer strat (fuel + 1) (traceHist strat answer n) =
          .ok (some (n + 1)) := by
        rw [playAux_succ, if_pos hwin, traceHist_length]
      constructor
      · intro i
        rw [hred]
        constructor
        · intro h
          have hi : n + 1 = i := by simpa using h
          refine ⟨by omega, by omega, ?_, ?_⟩
          · rw [← hi]
            exact hwg
          · intro j hj1 hj2
            exact absurd hj1 (by omega)
        · rintro ⟨h1, h2, h3, h4⟩
          have hieq : i = n + 1 := by
            by_contra hne
            exact h4 (n + 1) (by omega) (by omega) hwg
          rw [hieq]
      · rw [hred]
        constructor
        · intro h
          exact absurd h (by simp)
        · intro hall
          exact absurd hwg (hall (n + 1) (by omega) (by omega))
    · have hwg : guessAt strat answer (n + 1) ≠ answer := hwin
      have hmem : strat (traceHist strat answer n) ∈ dict :=
        hdict (n + 1) (by omega) (by omega) hwg
      have hred : playAux dict answer strat (fuel + 1) (traceHist strat answer n) =
          playAux dict answer strat fuel (traceHist strat answer (n + 1)) := by
        rw [playAux_succ, if_neg hwin, if_pos hmem]
        rfl
      have hdict2 : ∀ j, n + 1 + 1 ≤ j → j ≤ n + 1 + fuel →
          guessAt strat answer j ≠ answer → guessAt strat answer j ∈ dict :=
        fun j hj1 hj2 hj3 => hdict j (by omega) (by omega) hj3
      obtain ⟨ihsome, ihnone⟩ := ih (n + 1) hdict2
      constructor
      · intro i
        rw [hred, ihsome i]
        constructor
        · rintro ⟨h1, h2, h3, h4⟩
          refine ⟨by omega, by omega, h3, ?_⟩
          intro j hj1 hj2
          by_cases hj : j = n + 1
          · rw [hj]
            exact hwg
          · exact h4 j (by omega) hj2
        · rintro ⟨h1, h2, h3, h4⟩
          have hne : i ≠ n + 1 := fun he => hwg (he ▸ h3)
          exact ⟨by omega, by omega, h3, fun j hj1 hj2 => h4 j (by omega) hj2⟩
      · rw [hred, ihnone]
        constructor
        · intro hall j hj1 hj2
          by_cases hj : j = n + 1
          · rw [hj]
            exact hwg
          · exact hall j (by omega) (by omega)
        · intro hall j hj1 hj2
          exact hall j (by omega) (by omega)

/-- C5: assuming every non-winning guess the strategy emits is a dictionary
word, the game loop returns the first round among 1..32 whose guess equals
the answer, and returns none exactly when no guess within the 32 rounds
equals the answer. -/
theorem play_first_win (dict : List Word) (answer : Word) (strat : List Guess → Word)
    (hdict : ∀ j, 1 ≤ j → j ≤ 32 → guessAt strat answer j ≠ answer →
      guessAt strat answer j ∈ dict) (i : Nat) :
    (play dict answer strat = .ok (some i) ↔
      (1 ≤ i ∧ i ≤ 32 ∧ guessAt strat answer i = answer ∧
        ∀ j, 1 ≤ j → j < i → guessAt strat answer j ≠ answer)) ∧
    (play dict answer strat = .ok none ↔
      ∀ j, 1 ≤ j → j ≤ 32 → guessAt strat answer j ≠ answer) := by
  have h := playAux_ok_iff dict answer strat 32 0
    (fun j hj1 hj2 => hdict j (by omega) (by omega))
  constructor
  · have h1 := h.1 i
    constructor
    · intro hp
      obtain ⟨a1, a2, a3, a4⟩ := h1.mp hp
      exact ⟨by omega, by omega, a3, fun j hj1 hj2 => a4 j (by omega) hj2⟩
    · rintro ⟨a1, a2, a3, a4⟩
      exact h1.mpr ⟨by omega, by omega, a3, fun j hj1 hj2 => a4 j (by omega) hj2⟩
  · constructor
    · intro hp j hj1 hj2
      exact h.2.mp hp j (by omega) (by omega)
    · intro hall
      exact h.2.mpr (fun j hj1 hj2 => hall j (by omega) (by omega))

/-- Witness for C5: a strategy that always guesses the answer right wins in
round one. -/
theorem play_first_win_witness :
    play [wRight] wRight (fun _ => wRight) = .ok (some 1) := by
  have h := (play_first_win [wRight] wRight (fun _ => wRight)
    (fun j hj1 hj2 hne => absurd rfl hne) 1).1
  exact h.mpr ⟨by omega, by omega, rfl, fun j hj1 hj2 => absurd hj1 (by omega)⟩

theorem playAux_abort (dict : List Word) (answer : Word) (strat : List Guess → Word) :
    ∀ (fuel n i : Nat), n + 1 ≤ i → i ≤ n + fuel →
      (∀ j, n + 1 ≤ j → j < i →
        guessAt strat answer j ≠ answer ∧ guessAt strat answer j ∈ dict) →
      guessAt strat answer i ≠ answer → guessAt strat answer i ∉ dict →
      playAux dict answer strat fuel (traceHist strat answer n) = .error () := by
  intro fuel
  induction fuel with
  | zero =>
    intro n i h1 h2
    exact absurd h1 (by omega)
  | succ fuel ih =>
    intro n i h1 h2 hpre hi hid
    by_cases hni : i = n + 1
    · subst hni
      have hwin : ¬ strat (traceHist strat answer n) = answer := hi
      have hmem : strat (traceHist strat answer n) ∉ dict := hid
      rw [playAux_succ, if_neg hwin, if_neg hmem]
    · have hp1 := hpre (n + 1) (by omega) (by omega)
      have hwin : ¬ strat (traceHist strat answer n) = answer := hp1.1
      have hmem : strat (traceHist strat answer n) ∈ dict := hp1.2
      rw [playAux_succ, if_neg hwin, if_pos hmem]
      exact ih (n + 1) i (by omega) (by omega)
        (fun j hj1 hj2 => hpre j (by omega) hj2) hi hid

/-- C6 amended: a non-winning guess that is not a dictionary word makes the
game loop abort the run with an assertion failure instead of accepting the
guess and playing on; the winning guess itself is never checked because the
win test precedes the assertion. -/
theorem play_asserts_dictionary (dict : List Word) (answer : Word)
    (strat : List Guess → Word) (i : Nat) (h1 : 1 ≤ i) (h2 : i ≤ 32)
    (hpre : ∀ j, 1 ≤ j → j < i →
      guessAt strat answer j ≠ answer ∧ guessAt strat answer j ∈ dict)
    (hi : guessAt strat answer i ≠ answer)
    (hid : guessAt strat answer i ∉ dict) :
    play dict answer strat = .error () :=
  playAux_abort dict answer strat 32 0 i (by omega) (by omega)
    (fun j hj1 hj2 => hpre j (by omega) hj2) hi hid

/-- Witness for C6 amended: with an empty dictionary, a strategy that opens
with the non-winning word wrong aborts the run immediately. -/
theorem play_asserts_dictionary_witness :
    play [] wRight (fun _ => wWrong) = .error () :=
  play_asserts_dictionary [] wRight (fun _ => wWrong) 1 (by omega) (by omega)
    (fun j hj1 hj2 => absurd hj2 (by omega)) (by decide) (by simp)

/-- Counterexample for C6: with the empty dictionary, a strategy whose first
guess equals the answer wins at once, so a word outside the dictionary was
emitted and accepted without aborting the run, because the win test runs
before the assertion. -/
theorem play_assert_cex :
    wRight ∉ ([] : List Word) ∧
    play [] wRight (fun _ => wRight) = .ok (some 1) := by
  constructor
  · simp
  · show playAux [] wRight (fun _ => wRight) (31 + 1) [] = .ok (some 1)
    rw [playAux_succ]
    simp

end Popoki
